import Mathlib

/-!
Verification of the RAG-APP vector store (`src/mastra/rag/vector-store.ts`).

The development shallowly embeds `SimpleMemoryVectorStore` and
`BerkshireVectorStore`.  JavaScript numbers are modelled as exact rationals
(`ℚ`) wherever the code only stores, serializes and compares them, and as
real numbers (`ℝ`) for the cosine-similarity arithmetic, where square roots
are needed.  The asynchronous embedding provider is modelled as an explicit
function argument returning `Except`; the file system is modelled as the
content of the single snapshot file `data/vectors.json` (`Option FileData`).
JavaScript `Array.prototype.sort` with the comparator
`(a, b) => b.score - a.score` is, per the ECMAScript specification, a stable
descending sort by `score`; it is modelled by `List.insertionSort` with the
non-strict relation `b.score ≤ a.score`, which is stable in the same sense.
-/

/-- Primitive JavaScript metadata values (the metadata occurring in this
repository: strings, numbers, booleans, null).  `===` on these is decidable
value equality. -/
inductive MetaVal where
  | str (s : String)
  | num (q : ℚ)
  | bool (b : Bool)
  | null
deriving DecidableEq, Repr

/-- A JavaScript object used as metadata: an insertion-ordered list of
key/value pairs with pairwise-distinct keys. -/
abbrev Metadata := List (String × MetaVal)

/-- Langchain `Document`: page content plus metadata.  An absent metadata
object behaves like the empty object for every operation in the store and is
modelled as `[]`. -/
structure Document where
  pageContent : String
  metadata : Metadata
deriving DecidableEq, Repr

/-- One record of `SimpleMemoryVectorStore.docs`: `{ doc, embedding }`. -/
structure StoredVector where
  doc : Document
  embedding : List ℚ
deriving DecidableEq, Repr

/-- The facade input type `BerkshireDocument = { content, metadata? }`. -/
structure BerkshireDocument where
  content : String
  metadata : Metadata
deriving DecidableEq, Repr

/-- The filter check inside `similaritySearch`:
`Object.entries(filter).every(([key, val]) => item.doc.metadata[key] === val)`;
a missing key reads as `undefined`, which is `===`-equal to no `MetaVal`.
`none` models the absent optional `filter` argument, under which every
record passes. -/
def passesFilter (filter : Option Metadata) (d : Document) : Bool :=
  match filter with
  | none => true
  | some f => f.all (fun kv => d.metadata.lookup kv.1 == some kv.2)

/-- An intermediate `{ doc, score }` object built by `similaritySearch`. -/
structure Scored (R : Type) where
  doc : Document
  score : R
deriving Repr

/-- The `this.docs.map(...).filter(item => item !== null)` stage of
`similaritySearch`: keep the records passing the filter, in store order,
pairing each with its similarity score. -/
def scoreResults {R : Type} (score : List ℚ → List ℚ → R) (qEmb : List ℚ)
    (docs : List StoredVector) (filter : Option Metadata) : List (Scored R) :=
  docs.filterMap (fun item =>
    if passesFilter filter item.doc then
      some ⟨item.doc, score qEmb item.embedding⟩
    else none)

/-- `similaritySearch(query, k, filter)`.  The provider call
`embedQuery(query)` is abstracted into the query embedding `qEmb`, and the
similarity function is a parameter `score` into a linear order (the code
instantiates it with `cosineSimilarity`).  The `.sort((a, b) => b.score -
a.score)` stage is the stable descending sort by score. -/
def similaritySearch {R : Type} [LinearOrder R] (score : List ℚ → List ℚ → R)
    (qEmb : List ℚ) (docs : List StoredVector) (k : ℕ)
    (filter : Option Metadata) : List Document :=
  ((((scoreResults score qEmb docs filter).insertionSort
      (fun a b => b.score ≤ a.score)).take k).map (fun s => s.doc))

example :
    similaritySearch (fun _ e => e.headI) [1]
      [⟨⟨"a", []⟩, [2]⟩, ⟨⟨"b", []⟩, [5]⟩, ⟨⟨"c", []⟩, [5]⟩] 2 none =
      [⟨"b", []⟩, ⟨"c", []⟩] := by decide

example :
    similaritySearch (fun _ e => e.headI) [1]
      [⟨⟨"a", [("year", MetaVal.num 2020)]⟩, [2]⟩,
       ⟨⟨"b", [("year", MetaVal.num 2021)]⟩, [5]⟩] 4
      (some [("year", MetaVal.num 2020)]) =
      [⟨"a", [("year", MetaVal.num 2020)]⟩] := by decide

/-- JSON values, the image of `JSON.parse` on a well-formed file.  A JSON
number is modelled as an exact rational: `JSON.stringify`/`JSON.parse`
round-trips every JavaScript number value exactly (shortest-round-trip
printing), so within the rational model serialization is lossless. -/
inductive Json where
  | null
  | bool (b : Bool)
  | num (q : ℚ)
  | str (s : String)
  | arr (elems : List Json)
  | obj (fields : List (String × Json))

/-- Serialization of a metadata value by `JSON.stringify`. -/
def encodeMetaVal : MetaVal → Json
  | .str s => .str s
  | .num q => .num q
  | .bool b => .bool b
  | .null => .null

/-- Shape of a serialized metadata value, as read back by the load path. -/
def decodeMetaVal : Json → Option MetaVal
  | .str s => some (.str s)
  | .num q => some (.num q)
  | .bool b => some (.bool b)
  | .null => some .null
  | _ => none

/-- Serialization of a metadata object, field by field in order. -/
def encodeMetadata (m : Metadata) : Json :=
  .obj (m.map (fun kv => (kv.1, encodeMetaVal kv.2)))

/-- Reading back the fields of a serialized metadata object. -/
def decodeFields : List (String × Json) → Option Metadata
  | [] => some []
  | (k, j) :: rest =>
    match decodeMetaVal j, decodeFields rest with
    | some v, some vs => some ((k, v) :: vs)
    | _, _ => none

/-- Reading back a serialized metadata object. -/
def decodeMetadata : Json → Option Metadata
  | .obj fields => decodeFields fields
  | _ => none

/-- Serialization of a `Document` (`pageContent` and `metadata` fields). -/
def encodeDocument (d : Document) : Json :=
  .obj [("pageContent", .str d.pageContent), ("metadata", encodeMetadata d.metadata)]

/-- Reading back a serialized `Document`. -/
def decodeDocument : Json → Option Document
  | .obj [("pageContent", .str c), ("metadata", m)] =>
    (decodeMetadata m).map (fun md => ⟨c, md⟩)
  | _ => none

/-- Reading back a serialized embedding (an array of numbers). -/
def decodeNums : List Json → Option (List ℚ)
  | [] => some []
  | .num q :: rest => (decodeNums rest).map (fun qs => q :: qs)
  | _ => none

/-- Serialization of one `{ doc, embedding }` record. -/
def encodeStored (r : StoredVector) : Json :=
  .obj [("doc", encodeDocument r.doc), ("embedding", .arr (r.embedding.map .num))]

/-- Reading back one serialized `{ doc, embedding }` record. -/
def decodeStored : Json → Option StoredVector
  | .obj [("doc", dj), ("embedding", .arr es)] =>
    match decodeDocument dj, decodeNums es with
    | some d, some e => some ⟨d, e⟩
    | _, _ => none
  | _ => none

/-- Reading back the serialized record array element-wise. -/
def decodeStoredList : List Json → Option (List StoredVector)
  | [] => some []
  | j :: rest =>
    match decodeStored j, decodeStoredList rest with
    | some r, some rs => some (r :: rs)
    | _, _ => none

/-- `JSON.stringify(this.docs)`: the serialized record array. -/
def encodeDocs (docs : List StoredVector) : Json :=
  .arr (docs.map encodeStored)

/-- Reading the record array back from a parsed snapshot. -/
def decodeDocs : Json → Option (List StoredVector)
  | .arr js => decodeStoredList js
  | _ => none

/-- Content of the snapshot file `data/vectors.json`: either text that
parses as JSON (`content`), or text on which `JSON.parse` throws
(`malformed`). -/
inductive FileData where
  | content (j : Json)
  | malformed

/-- `saveToFile`: overwrite the snapshot file with `JSON.stringify(this.docs)`
(directory creation has no observable effect in this model). -/
def saveToFile (docs : List StoredVector) : FileData :=
  .content (encodeDocs docs)

/-- `loadFromFile`: absent file returns `false` and leaves `this.docs`
untouched; a file on which `JSON.parse` throws is caught, logged and also
returns `false` with `this.docs` untouched; a parsed snapshot of records
replaces `this.docs` and returns `true`.  (A file that parses to JSON of a
shape other than a record array is not reachable through `saveToFile` and is
treated like a parse failure.) -/
def loadFromFile (file : Option FileData) (docs : List StoredVector) :
    List StoredVector × Bool :=
  match file with
  | none => (docs, false)
  | some .malformed => (docs, false)
  | some (.content j) =>
    match decodeDocs j with
    | some ds => (ds, true)
    | none => (docs, false)

/-- The `BATCH_SIZE` constant of `SimpleMemoryVectorStore.addDocuments`. -/
def BATCH_SIZE : ℕ := 50

/-- Fuel-indexed slicing loop: the iterations of
`for (let i = 0; i < documents.length; i += BATCH_SIZE)`, each taking
`documents.slice(i, i + BATCH_SIZE)`.  The fuel bounds the number of
iterations (one per nonempty remainder) so the recursion is structural. -/
def chunksOfAux {α : Type} : ℕ → ℕ → List α → List (List α)
  | 0, _, _ => []
  | _, _, [] => []
  | fuel + 1, k, l => l.take k :: chunksOfAux fuel k (l.drop k)

/-- The successive batches `documents.slice(i, i + k)` for `i = 0, k, 2k, …`
(`l.length` iterations always suffice for positive `k`). -/
def chunksOf {α : Type} (k : ℕ) (l : List α) : List (List α) :=
  chunksOfAux l.length k l

/-- The records pushed for one batch when its provider call succeeds:
`{ doc: batch[j], embedding: embeddings[j] }` for each `j` (the provider
returns one embedding per input text, so the zip pairs them exactly). -/
def batchRecords {E : Type} (embed : List String → Except E (List (List ℚ)))
    (batch : List Document) : List StoredVector :=
  match embed (batch.map (fun d => d.pageContent)) with
  | .ok embs => (batch.zip embs).map (fun p => ⟨p.1, p.2⟩)
  | .error _ => []

/-- The batch loop of `SimpleMemoryVectorStore.addDocuments`: issue one
provider call per batch in order; on success push the records of the batch and
continue, on failure stop and rethrow the error of the provider.  Returns the
records pushed, the log of provider calls issued (the texts of each), and
the error if one occurred. -/
def runBatches {E : Type} (embed : List String → Except E (List (List ℚ))) :
    List (List Document) → List StoredVector × List (List String) × Option E
  | [] => ([], [], none)
  | batch :: rest =>
    match embed (batch.map (fun d => d.pageContent)) with
    | .error e => ([], [batch.map (fun d => d.pageContent)], some e)
    | .ok _ =>
      let tail := runBatches embed rest
      (batchRecords embed batch ++ tail.1,
       batch.map (fun d => d.pageContent) :: tail.2.1, tail.2.2)

/-- `SimpleMemoryVectorStore.addDocuments`: append the records of the
successfully embedded batches to `this.docs` (an empty input issues no
provider call and changes nothing). -/
def addDocumentsStore {E : Type} (embed : List String → Except E (List (List ℚ)))
    (docs : List StoredVector) (documents : List Document) :
    List StoredVector × List (List String) × Option E :=
  let r := runBatches embed (chunksOf BATCH_SIZE documents)
  (docs ++ r.1, r.2.1, r.2.2)

/-- JavaScript object spread with one overridden key,
`\x7b...m, key: v\x7d`: if `key` is present its value is replaced in place,
otherwise the key is appended at the end. -/
def setKeyJS (m : Metadata) (key : String) (v : MetaVal) : Metadata :=
  if (m.lookup key).isSome then
    m.map (fun p => if p.1 = key then (key, v) else p)
  else m ++ [(key, v)]

/-- The chunk built by `BerkshireVectorStore.addDocuments` for the input
document at position `idx`:
`new Document(\x7b pageContent, metadata: \x7b...doc.metadata, chunkIndex:
doc.metadata?.chunkIndex ?? idx \x7d \x7d)`.  The `??` operator falls back to
`idx` when `chunkIndex` is absent (or the metadata object itself is absent,
both read as `undefined`) and also when it is present with value `null`. -/
def mkChunk (d : BerkshireDocument) (idx : ℕ) : Document :=
  { pageContent := d.content
    metadata :=
      setKeyJS d.metadata "chunkIndex"
        (match d.metadata.lookup "chunkIndex" with
         | none => .num idx
         | some .null => .num idx
         | some v => v) }

/-- The chunk list built from the input documents, in input order with
positional indices (`documents.entries()`). -/
def mkChunks (documents : List BerkshireDocument) : List Document :=
  documents.enum.map (fun p => mkChunk p.2 p.1)

/-- State of a `BerkshireVectorStore` together with the snapshot file it
persists to: the records of the wrapped store and the content of the file. -/
structure BState where
  docs : List StoredVector
  file : Option FileData

/-- `BerkshireVectorStore.addDocuments`: build the chunks with defaulted
`chunkIndex`, embed and append them batch-wise, then save the snapshot; if
a batch fails the error is rethrown and no save happens, so the file is
unchanged while the records of the batches that succeeded remain in memory. -/
def bvAddDocuments {E : Type} (embed : List String → Except E (List (List ℚ)))
    (st : BState) (documents : List BerkshireDocument) :
    BState × List (List String) × Option E :=
  let r := addDocumentsStore embed st.docs (mkChunks documents)
  match r.2.2 with
  | none => (⟨r.1, some (saveToFile r.1)⟩, r.2.1, none)
  | some e => (⟨r.1, st.file⟩, r.2.1, some e)

/-- `BerkshireVectorStore.query`: run `similaritySearch` and strip each
result to `\x7b content, metadata \x7d`. -/
def bvQuery {R : Type} [LinearOrder R] (score : List ℚ → List ℚ → R)
    (qEmb : List ℚ) (st : BState) (topK : ℕ) (filter : Option Metadata) :
    List BerkshireDocument :=
  (similaritySearch score qEmb st.docs topK filter).map
    (fun d => ⟨d.pageContent, d.metadata⟩)

/-- The `BerkshireVectorStore` constructor: start from an empty store and
auto-load the snapshot file. -/
def bvInit (file : Option FileData) : BState :=
  ⟨(loadFromFile file []).1, file⟩

/-- `BerkshireVectorStore.clearIndex`: replace the store by a fresh empty
one and delete the snapshot file if present. -/
def clearIndex (_st : BState) : BState :=
  ⟨[], none⟩

/-- The running sum `dot` of `cosineSimilarity`: `dot += a[i] * b[i]` over
the common indices (the loop addresses both vectors at the same indices;
the code is only ever called with equal-length vectors). -/
def dotProduct (a b : List ℝ) : ℝ :=
  (List.zipWith (fun x y => x * y) a b).sum

/-- The running sum `normA` (resp. `normB`) of `cosineSimilarity`:
the sum of the squares of the entries of the vector. -/
def sumSquares (l : List ℝ) : ℝ :=
  (l.map (fun x => x * x)).sum

/-- The denominator of `cosineSimilarity`:
`Math.sqrt(normA) * Math.sqrt(normB)`. -/
noncomputable def cosDenominator (a b : List ℝ) : ℝ :=
  Real.sqrt (sumSquares a) * Real.sqrt (sumSquares b)

/-- `SimpleMemoryVectorStore.cosineSimilarity`:
`dot / (Math.sqrt(normA) * Math.sqrt(normB))`, dividing by the literal
computed norms with no guard against a zero denominator. -/
noncomputable def cosineSimilarity (a b : List ℝ) : ℝ :=
  dotProduct a b / cosDenominator a b

lemma decode_encodeMetaVal (v : MetaVal) : decodeMetaVal (encodeMetaVal v) = some v := by
  cases v <;> rfl

lemma decode_encodeFields (m : Metadata) :
    decodeFields (m.map (fun kv => (kv.1, encodeMetaVal kv.2))) = some m := by
  induction m with
  | nil => rfl
  | cons kv rest ih =>
    obtain ⟨k, v⟩ := kv
    simp [decodeFields, decode_encodeMetaVal, ih]

lemma decode_encodeMetadata (m : Metadata) :
    decodeMetadata (encodeMetadata m) = some m := by
  simp [decodeMetadata, encodeMetadata, decode_encodeFields]

lemma decode_encodeDocument (d : Document) :
    decodeDocument (encodeDocument d) = some d := by
  obtain ⟨c, md⟩ := d
  simp [decodeDocument, encodeDocument, decode_encodeMetadata]

lemma decode_encodeNums (e : List ℚ) : decodeNums (e.map .num) = some e := by
  induction e with
  | nil => rfl
  | cons q rest ih => simp [decodeNums, ih]

lemma decode_encodeStored (r : StoredVector) :
    decodeStored (encodeStored r) = some r := by
  obtain ⟨d, e⟩ := r
  simp [decodeStored, encodeStored, decode_encodeDocument, decode_encodeNums]

lemma decode_encodeStoredList (docs : List StoredVector) :
    decodeStoredList (docs.map encodeStored) = some docs := by
  induction docs with
  | nil => rfl
  | cons r rest ih => simp [decodeStoredList, decode_encodeStored, ih]

lemma decode_encodeDocs (docs : List StoredVector) :
    decodeDocs (encodeDocs docs) = some docs := by
  simp [decodeDocs, encodeDocs, decode_encodeStoredList]

/-- C2: saving an index to the snapshot file and loading it back reproduces
the saved records element-wise — equal content, metadata and embedding
values — in the same order, overwriting whatever records the loading store
held, and reports success. -/
theorem saveLoad_roundtrip (docs cur : List StoredVector) :
    loadFromFile (some (saveToFile docs)) cur = (docs, true) := by
  simp [loadFromFile, saveToFile, decode_encodeDocs]

/-- C2 witness at a concrete one-record index. -/
theorem saveLoad_roundtrip_witness :
    loadFromFile (some (saveToFile [⟨⟨"a", [("year", MetaVal.num 2020)]⟩, [1, 2]⟩])) [] =
      ([⟨⟨"a", [("year", MetaVal.num 2020)]⟩, [1, 2]⟩], true) :=
  saveLoad_roundtrip [⟨⟨"a", [("year", MetaVal.num 2020)]⟩, [1, 2]⟩] []

/-- C5: loading from an absent snapshot file returns the explicit absent
signal `false` and is not an error; loading from a file on which
`JSON.parse` throws likewise returns `false`; in both cases the in-memory
records are untouched, and the auto-loading constructor proceeds with an
empty index. -/
theorem load_absent_spec (s : List StoredVector) :
    loadFromFile none s = (s, false) ∧
    loadFromFile (some FileData.malformed) s = (s, false) ∧
    (bvInit none).docs = [] ∧
    (bvInit (some FileData.malformed)).docs = [] :=
  ⟨rfl, rfl, rfl, rfl⟩

/-- C5 witness at a concrete nonempty in-memory record list. -/
theorem load_absent_spec_witness :
    loadFromFile none [⟨⟨"a", []⟩, [1]⟩] = ([⟨⟨"a", []⟩, [1]⟩], false) :=
  (load_absent_spec [⟨⟨"a", []⟩, [1]⟩]).1

/-- C8: `clearIndex` empties the index and removes the snapshot file; it is
idempotent, and every query on a cleared store — any query embedding, any
`k`, any filter — returns the empty list. -/
theorem clearIndex_spec (st : BState) :
    (clearIndex st).file = none ∧
    clearIndex (clearIndex st) = clearIndex st ∧
    ∀ (R : Type) (inst : LinearOrder R) (score : List ℚ → List ℚ → R)
      (qEmb : List ℚ) (k : ℕ) (filter : Option Metadata),
      @bvQuery R inst score qEmb (clearIndex st) k filter = [] :=
  ⟨rfl, rfl, fun _ _ _ _ k _ => by
    simp [bvQuery, similaritySearch, scoreResults, clearIndex]⟩

/-- C8 witness at a concrete nonempty store with a saved snapshot. -/
theorem clearIndex_spec_witness :
    (clearIndex ⟨[⟨⟨"a", []⟩, [1]⟩], some (saveToFile [⟨⟨"a", []⟩, [1]⟩])⟩).file = none :=
  (clearIndex_spec ⟨[⟨⟨"a", []⟩, [1]⟩], some (saveToFile [⟨⟨"a", []⟩, [1]⟩])⟩).1

lemma scoreResults_eq_filter {R : Type} (score : List ℚ → List ℚ → R)
    (qEmb : List ℚ) (docs : List StoredVector) (filter : Option Metadata) :
    scoreResults score qEmb docs filter =
      (docs.filter (fun r => passesFilter filter r.doc)).map
        (fun r => ⟨r.doc, score qEmb r.embedding⟩) := by
  induction docs with
  | nil => rfl
  | cons a l ih =>
    simp only [scoreResults, List.filterMap_cons, List.filter_cons] at *
    cases h : passesFilter filter a.doc <;> simp [h, ih]

/-- C3: with a filter supplied, a record survives the filtering stage
exactly when its metadata maps every key of the filter to a value strictly
equal to the value the filter holds for it; a record missing a required key is
excluded; with no filter every record survives. -/
theorem passesFilter_spec {R : Type} (score : List ℚ → List ℚ → R)
    (qEmb : List ℚ) (docs : List StoredVector) (f : Metadata) (d : Document) :
    (passesFilter (some f) d = true ↔
      ∀ kv ∈ f, d.metadata.lookup kv.1 = some kv.2) ∧
    ((∃ kv ∈ f, d.metadata.lookup kv.1 = none) → passesFilter (some f) d = false) ∧
    passesFilter none d = true ∧
    scoreResults score qEmb docs (some f) =
      (docs.filter (fun r => passesFilter (some f) r.doc)).map
        (fun r => ⟨r.doc, score qEmb r.embedding⟩) ∧
    scoreResults score qEmb docs none =
      docs.map (fun r => ⟨r.doc, score qEmb r.embedding⟩) := by
  have hiff : passesFilter (some f) d = true ↔
      ∀ kv ∈ f, d.metadata.lookup kv.1 = some kv.2 := by
    simp [passesFilter, List.all_eq_true]
  refine ⟨hiff, ?_, rfl, scoreResults_eq_filter score qEmb docs (some f), ?_⟩
  · rintro ⟨kv, hmem, hnone⟩
    cases hpf : passesFilter (some f) d with
    | false => rfl
    | true =>
      have := (hiff.mp hpf) kv hmem
      rw [hnone] at this
      exact absurd this (by simp)
  · rw [scoreResults_eq_filter]
    simp [passesFilter]

/-- C3 witness: the example given in the specification — records with metadata year 2020
and year 2021 against the filter year 2020. -/
theorem passesFilter_spec_witness :
    passesFilter (some [("year", MetaVal.num 2020)]) ⟨"a", [("year", MetaVal.num 2020)]⟩ = true ∧
    passesFilter (some [("year", MetaVal.num 2020)]) ⟨"b", [("year", MetaVal.num 2021)]⟩ = false :=
  ⟨(passesFilter_spec (fun _ e => e.headI) [] [] [("year", MetaVal.num 2020)]
      ⟨"a", [("year", MetaVal.num 2020)]⟩).1.mpr (by decide),
   by decide⟩

lemma dotProduct_self (a : List ℝ) : dotProduct a a = sumSquares a := by
  induction a with
  | nil => rfl
  | cons x xs ih =>
    have h1 : dotProduct (x :: xs) (x :: xs) = x * x + dotProduct xs xs := by
      simp [dotProduct]
    have h2 : sumSquares (x :: xs) = x * x + sumSquares xs := by
      simp [sumSquares]
    rw [h1, h2, ih]

lemma sumSquares_nonneg (l : List ℝ) : 0 ≤ sumSquares l := by
  induction l with
  | nil => exact le_refl 0
  | cons x xs ih =>
    have : sumSquares (x :: xs) = x * x + sumSquares xs := by simp [sumSquares]
    rw [this]
    exact add_nonneg (mul_self_nonneg x) ih

lemma sumSquares_pos (l : List ℝ) (h : ∃ x ∈ l, x ≠ 0) : 0 < sumSquares l := by
  induction l with
  | nil => simp at h
  | cons y ys ih =>
    have hsum : sumSquares (y :: ys) = y * y + sumSquares ys := by simp [sumSquares]
    rw [hsum]
    rcases h with ⟨x, hx, hx0⟩
    rcases List.mem_cons.mp hx with h1 | h2
    · subst h1
      exact add_pos_of_pos_of_nonneg (mul_self_pos.mpr hx0) (sumSquares_nonneg ys)
    · exact add_pos_of_nonneg_of_pos (mul_self_nonneg y) (ih ⟨x, h2, hx0⟩)

lemma sumSquares_eq_zero_iff (l : List ℝ) :
    sumSquares l = 0 ↔ ∀ x ∈ l, x = 0 := by
  constructor
  · intro h x hx
    by_contra hx0
    exact absurd h.symm (ne_of_lt (sumSquares_pos l ⟨x, hx, hx0⟩))
  · intro h
    induction l with
    | nil => rfl
    | cons y ys ih =>
      have hy : y = 0 := h y (List.mem_cons_self y ys)
      have : sumSquares (y :: ys) = y * y + sumSquares ys := by simp [sumSquares]
      rw [this, hy, ih (fun x hx => h x (List.mem_cons_of_mem y hx))]
      ring

/-- C9: the similarity score is literally `dot(q, e)` divided by the
product of the computed Euclidean norms; a nonzero vector has similarity
exactly `1` with itself, and orthogonal vectors have similarity exactly
`0` (in the real-number model of the floating-point arithmetic). -/
theorem cosineSimilarity_spec (a b : List ℝ) (h1 : ∃ x ∈ a, x ≠ 0)
    (h2 : dotProduct a b = 0) :
    cosineSimilarity a b =
      dotProduct a b / (Real.sqrt (sumSquares a) * Real.sqrt (sumSquares b)) ∧
    cosineSimilarity a a = 1 ∧
    cosineSimilarity a b = 0 := by
  refine ⟨rfl, ?_, ?_⟩
  · have hpos := sumSquares_pos a h1
    rw [cosineSimilarity, cosDenominator, dotProduct_self,
      Real.mul_self_sqrt (le_of_lt hpos)]
    exact div_self (ne_of_gt hpos)
  · rw [cosineSimilarity, h2, zero_div]

/-- C9 witness: the identical vector `[1, 0]` scores `1` against itself and
`0` against the orthogonal vector `[0, 1]`. -/
theorem cosineSimilarity_spec_witness :
    (∃ x ∈ [(1 : ℝ), 0], x ≠ 0) ∧ dotProduct [(1 : ℝ), 0] [0, 1] = 0 ∧
    cosineSimilarity [(1 : ℝ), 0] [(1 : ℝ), 0] = 1 ∧
    cosineSimilarity [(1 : ℝ), 0] [0, 1] = 0 := by
  have h1 : ∃ x ∈ [(1 : ℝ), 0], x ≠ 0 := ⟨1, by simp, one_ne_zero⟩
  have h2 : dotProduct [(1 : ℝ), 0] [0, 1] = 0 := by
    simp [dotProduct]
  exact ⟨h1, h2, (cosineSimilarity_spec [(1 : ℝ), 0] [0, 1] h1 h2).2.1,
    (cosineSimilarity_spec [(1 : ℝ), 0] [0, 1] h1 h2).2.2⟩

/-- C10: the division in `cosineSimilarity` is unguarded, and its
denominator is nonzero exactly when both input vectors have some nonzero
entry; under that precondition the zero-denominator branch is unreachable,
while for an all-zero vector the denominator is literally zero, so the
quotient is not a meaningful score. -/
theorem cosDenominator_spec (a b : List ℝ) :
    (cosDenominator a b ≠ 0 ↔ (∃ x ∈ a, x ≠ 0) ∧ (∃ x ∈ b, x ≠ 0)) ∧
    (cosDenominator a b = 0 ↔ (∀ x ∈ a, x = 0) ∨ (∀ x ∈ b, x = 0)) ∧
    cosineSimilarity a b = dotProduct a b / cosDenominator a b := by
  have hzero : cosDenominator a b = 0 ↔ (∀ x ∈ a, x = 0) ∨ (∀ x ∈ b, x = 0) := by
    rw [cosDenominator, mul_eq_zero, Real.sqrt_eq_zero (sumSquares_nonneg a),
      Real.sqrt_eq_zero (sumSquares_nonneg b), sumSquares_eq_zero_iff,
      sumSquares_eq_zero_iff]
  refine ⟨?_, hzero, rfl⟩
  rw [ne_eq, hzero]
  push_neg
  rfl

/-- C10 witness: for `[1]` against `[1]` the denominator is nonzero. -/
theorem cosDenominator_spec_witness : cosDenominator [(1 : ℝ)] [(1 : ℝ)] ≠ 0 :=
  (cosDenominator_spec [(1 : ℝ)] [(1 : ℝ)]).1.mpr
    ⟨⟨1, by simp, one_ne_zero⟩, ⟨1, by simp, one_ne_zero⟩⟩

lemma orderedInsert_filter_of_score_eq {R : Type} [LinearOrder R] (c : R)
    (x : Scored R) (hx : x.score = c) (l : List (Scored R)) :
    (l.orderedInsert (fun a b => b.score ≤ a.score) x).filter
        (fun y => decide (y.score = c)) =
      x :: l.filter (fun y => decide (y.score = c)) := by
  induction l with
  | nil => simp [hx]
  | cons b l ih =>
    by_cases hb : b.score ≤ x.score
    · have h1 : (b :: l).orderedInsert (fun a b => b.score ≤ a.score) x = x :: b :: l := by
        simp [List.orderedInsert, hb]
      rw [h1]
      simp [List.filter_cons, hx]
    · have hbc : ¬(b.score = c) := by
        rw [← hx]
        intro hcon
        exact hb (le_of_eq hcon)
      simp [List.orderedInsert, hb, List.filter_cons, hbc, ih]

lemma orderedInsert_filter_of_score_ne {R : Type} [LinearOrder R] (c : R)
    (x : Scored R) (hx : ¬(x.score = c)) (l : List (Scored R)) :
    (l.orderedInsert (fun a b => b.score ≤ a.score) x).filter
        (fun y => decide (y.score = c)) =
      l.filter (fun y => decide (y.score = c)) := by
  induction l with
  | nil => simp [hx]
  | cons b l ih =>
    by_cases hb : b.score ≤ x.score
    · simp [List.orderedInsert, hb, List.filter_cons, hx]
    · simp [List.orderedInsert, hb, List.filter_cons, ih]

lemma insertionSort_stable_filter {R : Type} [LinearOrder R] (c : R) :
    ∀ l : List (Scored R),
      (l.insertionSort (fun a b => b.score ≤ a.score)).filter
          (fun y => decide (y.score = c)) =
        l.filter (fun y => decide (y.score = c))
  | [] => rfl
  | a :: l => by
    simp only [List.insertionSort]
    by_cases ha : a.score = c
    · rw [orderedInsert_filter_of_score_eq c a ha, insertionSort_stable_filter c l]
      simp [List.filter_cons, ha]
    · rw [orderedInsert_filter_of_score_ne c a ha, insertionSort_stable_filter c l]
      simp [List.filter_cons, ha]

lemma mem_scoreResults {R : Type} (score : List ℚ → List ℚ → R) (qEmb : List ℚ)
    (docs : List StoredVector) (filter : Option Metadata) (s : Scored R)
    (hs : s ∈ scoreResults score qEmb docs filter) :
    ∃ rec ∈ docs, rec.doc = s.doc := by
  rw [scoreResults_eq_filter] at hs
  rcases List.mem_map.mp hs with ⟨rec, hrec, heq⟩
  exact ⟨rec, List.mem_of_mem_filter hrec, by rw [← heq]⟩

/-- C1: `similaritySearch` returns at most `k` documents, each of them the
content-plus-metadata (the embedding stripped) of a record present in the
index; the result is the `k`-prefix of the surviving scored records stably
sorted by descending similarity score — the sorted list is a permutation of
the survivors, is sorted so each score is at least the next one, and for
every score value the records carrying it stay in their original insertion
order. -/
theorem similaritySearch_spec {R : Type} [LinearOrder R]
    (score : List ℚ → List ℚ → R) (qEmb : List ℚ) (docs : List StoredVector)
    (k : ℕ) (filter : Option Metadata) :
    (similaritySearch score qEmb docs k filter).length ≤ k ∧
    (∀ d ∈ similaritySearch score qEmb docs k filter, ∃ rec ∈ docs, rec.doc = d) ∧
    similaritySearch score qEmb docs k filter =
      (((scoreResults score qEmb docs filter).insertionSort
          (fun a b => b.score ≤ a.score)).take k).map (fun s => s.doc) ∧
    ((scoreResults score qEmb docs filter).insertionSort
        (fun a b => b.score ≤ a.score)).Sorted (fun a b => b.score ≤ a.score) ∧
    ((scoreResults score qEmb docs filter).insertionSort
        (fun a b => b.score ≤ a.score)).Perm
      (scoreResults score qEmb docs filter) ∧
    ∀ c : R,
      ((scoreResults score qEmb docs filter).insertionSort
          (fun a b => b.score ≤ a.score)).filter (fun y => decide (y.score = c)) =
        (scoreResults score qEmb docs filter).filter
          (fun y => decide (y.score = c)) := by
  refine ⟨?_, ?_, rfl, ?_, List.perm_insertionSort _ _,
    fun c => insertionSort_stable_filter c _⟩
  · simp only [similaritySearch, List.length_map]
    exact le_trans (List.length_take_le k _) (le_refl k)
  · intro d hd
    simp only [similaritySearch, List.mem_map] at hd
    rcases hd with ⟨s, hs, hsd⟩
    have hmem : s ∈ (scoreResults score qEmb docs filter).insertionSort
        (fun a b => b.score ≤ a.score) := List.mem_of_mem_take hs
    have := mem_scoreResults score qEmb docs filter s
      ((List.mem_insertionSort _).mp hmem)
    rcases this with ⟨rec, hrec, hdoc⟩
    exact ⟨rec, hrec, by rw [hdoc, hsd]⟩
  · haveI : IsTotal (Scored R) (fun a b => b.score ≤ a.score) :=
      ⟨fun a b => le_total b.score a.score⟩
    haveI : IsTrans (Scored R) (fun a b => b.score ≤ a.score) :=
      ⟨fun _ _ _ hab hbc => le_trans hbc hab⟩
    exact List.sorted_insertionSort _ _

/-- C1 witness at a concrete two-record index with `k = 1`. -/
theorem similaritySearch_spec_witness :
    (similaritySearch (fun _ e => e.headI) [1]
        [⟨⟨"a", []⟩, [2]⟩, ⟨⟨"b", []⟩, [5]⟩] 1 none).length ≤ 1 :=
  (similaritySearch_spec (fun _ e => e.headI) [1]
    [⟨⟨"a", []⟩, [2]⟩, ⟨⟨"b", []⟩, [5]⟩] 1 none).1

lemma chunksOfAux_congr {α : Type} (k : ℕ) (hk : 0 < k) :
    ∀ (f1 f2 : ℕ) (l : List α), l.length ≤ f1 → l.length ≤ f2 →
      chunksOfAux f1 k l = chunksOfAux f2 k l := by
  intro f1
  induction f1 with
  | zero =>
    intro f2 l h1 _
    have hl : l = [] := List.eq_nil_of_length_eq_zero (Nat.le_zero.mp h1)
    subst hl
    cases f2 <;> rfl
  | succ f ih =>
    intro f2 l h1 h2
    cases l with
    | nil => cases f2 <;> rfl
    | cons x xs =>
      cases f2 with
      | zero => simp at h2
      | succ g =>
        show (x :: xs).take k :: chunksOfAux f k ((x :: xs).drop k) =
          (x :: xs).take k :: chunksOfAux g k ((x :: xs).drop k)
        congr 1
        apply ih
        · rw [List.length_drop]
          simp only [List.length_cons] at h1 ⊢
          omega
        · rw [List.length_drop]
          simp only [List.length_cons] at h2 ⊢
          omega

lemma chunksOf_cons {α : Type} (k : ℕ) (hk : 0 < k) (x : α) (xs : List α) :
    chunksOf k (x :: xs) =
      (x :: xs).take k :: chunksOf k ((x :: xs).drop k) := by
  show (x :: xs).take k :: chunksOfAux xs.length k ((x :: xs).drop k) =
    (x :: xs).take k :: chunksOfAux ((x :: xs).drop k).length k ((x :: xs).drop k)
  congr 1
  apply chunksOfAux_congr k hk
  · rw [List.length_drop]
    simp only [List.length_cons]
    omega
  · exact le_refl _

lemma chunksOf_flatten_bounded {α : Type} (k : ℕ) (hk : 0 < k) :
    ∀ (n : ℕ) (l : List α), l.length ≤ n → (chunksOf k l).flatten = l := by
  intro n
  induction n with
  | zero =>
    intro l h
    have hl : l = [] := List.eq_nil_of_length_eq_zero (Nat.le_zero.mp h)
    subst hl
    rfl
  | succ n ih =>
    intro l h
    cases l with
    | nil => rfl
    | cons x xs =>
      rw [chunksOf_cons k hk, List.flatten_cons,
        ih ((x :: xs).drop k) (by rw [List.length_drop]; simp only [List.length_cons] at h ⊢; omega)]
      exact List.take_append_drop k (x :: xs)

lemma chunksOf_flatten {α : Type} (k : ℕ) (hk : 0 < k) (l : List α) :
    (chunksOf k l).flatten = l :=
  chunksOf_flatten_bounded k hk l.length l (le_refl _)

lemma chunksOf_length_bounded {α : Type} (k : ℕ) (hk : 0 < k) :
    ∀ (n : ℕ) (l : List α), l.length ≤ n →
      (chunksOf k l).length = (l.length + k - 1) / k := by
  intro n
  induction n with
  | zero =>
    intro l h
    have hl : l = [] := List.eq_nil_of_length_eq_zero (Nat.le_zero.mp h)
    subst hl
    show 0 = (0 + k - 1) / k
    rw [Nat.div_eq_of_lt (by omega)]
  | succ n ih =>
    intro l h
    cases l with
    | nil =>
      show 0 = (0 + k - 1) / k
      rw [Nat.div_eq_of_lt (by omega)]
    | cons x xs =>
      rw [chunksOf_cons k hk, List.length_cons,
        ih ((x :: xs).drop k) (by rw [List.length_drop]; simp only [List.length_cons] at h ⊢; omega)]
      rw [List.length_drop]
      simp only [List.length_cons]
      by_cases hmk : k ≤ xs.length + 1
      · have h1 : xs.length + 1 - k + k - 1 = xs.length := by omega
        have h2 : xs.length + 1 + k - 1 = xs.length + k := by omega
        rw [h1, h2, Nat.add_div_right _ hk]
      · have h1 : xs.length + 1 - k = 0 := by omega
        have h3 : (xs.length + 1 + k - 1) / k = 1 :=
          Nat.div_eq_of_lt_le (by omega) (by omega)
        rw [h1, Nat.div_eq_of_lt (by omega), h3]

lemma chunksOf_length {α : Type} (k : ℕ) (hk : 0 < k) (l : List α) :
    (chunksOf k l).length = (l.length + k - 1) / k :=
  chunksOf_length_bounded k hk l.length l (le_refl _)

lemma chunksOf_mem_length_bounded {α : Type} (k : ℕ) (hk : 0 < k) :
    ∀ (n : ℕ) (l : List α), l.length ≤ n →
      ∀ c ∈ chunksOf k l, c.length ≤ k := by
  intro n
  induction n with
  | zero =>
    intro l h c hc
    have hl : l = [] := List.eq_nil_of_length_eq_zero (Nat.le_zero.mp h)
    subst hl
    simp [chunksOf, chunksOfAux] at hc
  | succ n ih =>
    intro l h c hc
    cases l with
    | nil => simp [chunksOf, chunksOfAux] at hc
    | cons x xs =>
      rw [chunksOf_cons k hk] at hc
      rcases List.mem_cons.mp hc with h1 | h2
      · subst h1
        exact List.length_take_le k (x :: xs)
      · exact ih ((x :: xs).drop k)
          (by rw [List.length_drop]; simp only [List.length_cons] at h ⊢; omega) c h2

lemma mkChunks_length (documents : List BerkshireDocument) :
    (mkChunks documents).length = documents.length := by
  simp [mkChunks]

lemma runBatches_success {E : Type} (embed : List String → Except E (List (List ℚ)))
    (hE : ∀ texts, ∃ embs, embed texts = Except.ok embs ∧ embs.length = texts.length) :
    ∀ batches : List (List Document),
      ∃ recs, runBatches embed batches =
        (recs, batches.map (fun b => b.map (fun d => d.pageContent)), none) ∧
        recs.map (fun r => r.doc) = batches.flatten := by
  intro batches
  induction batches with
  | nil => exact ⟨[], rfl, rfl⟩
  | cons batch rest ih =>
    obtain ⟨embs, hok, hlen⟩ := hE (batch.map (fun d => d.pageContent))
    obtain ⟨recs, hrun, hdoc⟩ := ih
    refine ⟨batchRecords embed batch ++ recs, ?_, ?_⟩
    · simp only [runBatches]
      rw [hok, hrun]
      rfl
    · have hbatch : (batchRecords embed batch).map (fun r => r.doc) = batch := by
        rw [batchRecords, hok]
        rw [List.map_map]
        have : ((fun r : StoredVector => r.doc) ∘ fun p : Document × List ℚ => ⟨p.1, p.2⟩) =
            Prod.fst := rfl
        rw [this]
        apply List.map_fst_zip
        rw [hlen, List.length_map]
      rw [List.flatten_cons, List.map_append, hbatch, hdoc]

lemma runBatches_error {E : Type} (embed : List String → Except E (List (List ℚ))) :
    ∀ (batches : List (List Document)) (recs : List StoredVector)
      (calls : List (List String)) (e : E),
      runBatches embed batches = (recs, calls, some e) →
      ∃ bs1 b bs2, batches = bs1 ++ b :: bs2 ∧
        (∀ x ∈ bs1, ∃ embs, embed (x.map (fun d => d.pageContent)) = Except.ok embs) ∧
        embed (b.map (fun d => d.pageContent)) = Except.error e ∧
        recs = (bs1.map (batchRecords embed)).flatten ∧
        calls = (bs1 ++ [b]).map (fun x => x.map (fun d => d.pageContent)) := by
  intro batches
  induction batches with
  | nil =>
    intro recs calls e h
    simp [runBatches] at h
  | cons batch rest ih =>
    intro recs calls e h
    simp only [runBatches] at h
    cases hok : embed (batch.map (fun d => d.pageContent)) with
    | error e2 =>
      rw [hok] at h
      injection h with ha hbc
      injection hbc with hb hc
      injection hc with he
      refine ⟨[], batch, rest, rfl, by simp, ?_, by simp [← ha], by simp [← hb]⟩
      rw [hok, he]
    | ok embs =>
      rw [hok] at h
      injection h with ha hbc
      injection hbc with hb hc
      obtain ⟨bs1, b, bs2, hsplit, hoks, herr, hrecs, hcalls⟩ :=
        ih (runBatches embed rest).1 (runBatches embed rest).2.1 e (by rw [← hc])
      refine ⟨batch :: bs1, b, bs2, by rw [hsplit]; rfl, ?_, herr, ?_, ?_⟩
      · intro x hx
        rcases List.mem_cons.mp hx with h1 | h2
        · subst h1
          exact ⟨embs, hok⟩
        · exact hoks x h2
      · rw [← ha, hrecs]
        simp
      · rw [← hb, hcalls]
        simp

/-- C4: when some embedding batch fails, `addDocuments` fails with the
error of the provider from the first failing batch, the snapshot file is not
rewritten in that call, and the records of every batch embedded before the
failure remain appended to the in-memory index. -/
theorem bvAddDocuments_error {E : Type}
    (embed : List String → Except E (List (List ℚ))) (st : BState)
    (documents : List BerkshireDocument) (e : E)
    (h : (bvAddDocuments embed st documents).2.2 = some e) :
    ((bvAddDocuments embed st documents).1).file = st.file ∧
    ∃ bs1 b bs2,
      chunksOf BATCH_SIZE (mkChunks documents) = bs1 ++ b :: bs2 ∧
      (∀ x ∈ bs1, ∃ embs, embed (x.map (fun d => d.pageContent)) = Except.ok embs) ∧
      embed (b.map (fun d => d.pageContent)) = Except.error e ∧
      ((bvAddDocuments embed st documents).1).docs =
        st.docs ++ (bs1.map (batchRecords embed)).flatten := by
  cases hrb : (runBatches embed (chunksOf BATCH_SIZE (mkChunks documents))).2.2 with
  | none =>
    exfalso
    simp [bvAddDocuments, addDocumentsStore, hrb] at h
  | some e2 =>
    have hfile : ((bvAddDocuments embed st documents).1).file = st.file := by
      simp [bvAddDocuments, addDocumentsStore, hrb]
    have hdocs : ((bvAddDocuments embed st documents).1).docs =
        st.docs ++ (runBatches embed (chunksOf BATCH_SIZE (mkChunks documents))).1 := by
      simp [bvAddDocuments, addDocumentsStore, hrb]
    have he : e2 = e := by
      simp only [bvAddDocuments, addDocumentsStore, hrb] at h
      injection h
    subst he
    obtain ⟨bs1, b, bs2, hsplit, hoks, herr, hrecs, _⟩ :=
      runBatches_error embed (chunksOf BATCH_SIZE (mkChunks documents))
        (runBatches embed (chunksOf BATCH_SIZE (mkChunks documents))).1
        (runBatches embed (chunksOf BATCH_SIZE (mkChunks documents))).2.1 e2
        (by rw [← hrb])
    exact ⟨hfile, bs1, b, bs2, hsplit, hoks, herr, by rw [hdocs, hrecs]⟩

/-- C4 witness: a provider that always fails; the call reports the error,
the snapshot file stays as it was (absent), and no records were added. -/
theorem bvAddDocuments_error_witness :
    (bvAddDocuments (fun _ => (Except.error "boom" : Except String (List (List ℚ))))
        ⟨[], none⟩ [⟨"a", []⟩]).2.2 = some "boom" ∧
    ((bvAddDocuments (fun _ => (Except.error "boom" : Except String (List (List ℚ))))
        ⟨[], none⟩ [⟨"a", []⟩]).1).file = none :=
  ⟨rfl,
   (bvAddDocuments_error (fun _ => (Except.error "boom" : Except String (List (List ℚ))))
     ⟨[], none⟩ [⟨"a", []⟩] "boom" rfl).1⟩

/-- C6: when every batch embeds successfully, `addDocuments` issues exactly
one provider call per batch of fifty chunks — `ceil(n / 50)` calls of at
most fifty texts each, in order — and appends exactly one record per input
chunk, in input order, then saves the snapshot. -/
theorem bvAddDocuments_success {E : Type}
    (embed : List String → Except E (List (List ℚ))) (st : BState)
    (documents : List BerkshireDocument)
    (hE : ∀ texts, ∃ embs, embed texts = Except.ok embs ∧ embs.length = texts.length) :
    ∃ stS calls, bvAddDocuments embed st documents = (stS, calls, none) ∧
      calls = (chunksOf BATCH_SIZE (mkChunks documents)).map
        (fun b => b.map (fun d => d.pageContent)) ∧
      calls.length = (documents.length + 49) / 50 ∧
      (∀ c ∈ calls, c.length ≤ 50) ∧
      stS.docs.map (fun r => r.doc) = st.docs.map (fun r => r.doc) ++ mkChunks documents ∧
      stS.docs.length = st.docs.length + documents.length ∧
      stS.file = some (saveToFile stS.docs) := by
  obtain ⟨recs, hrun, hdoc⟩ :=
    runBatches_success embed hE (chunksOf BATCH_SIZE (mkChunks documents))
  have hflat : (chunksOf BATCH_SIZE (mkChunks documents)).flatten = mkChunks documents :=
    chunksOf_flatten BATCH_SIZE (by norm_num [BATCH_SIZE]) (mkChunks documents)
  have hrecsdoc : recs.map (fun r => r.doc) = mkChunks documents := by
    rw [hdoc, hflat]
  refine ⟨⟨st.docs ++ recs, some (saveToFile (st.docs ++ recs))⟩,
    (chunksOf BATCH_SIZE (mkChunks documents)).map
      (fun b => b.map (fun d => d.pageContent)), ?_, rfl, ?_, ?_, ?_, ?_, rfl⟩
  · simp only [bvAddDocuments, addDocumentsStore, hrun]
  · rw [List.length_map, chunksOf_length BATCH_SIZE (by norm_num [BATCH_SIZE]),
      mkChunks_length]
    rfl
  · intro c hc
    rcases List.mem_map.mp hc with ⟨b, hb, hbc⟩
    rw [← hbc, List.length_map]
    exact chunksOf_mem_length_bounded BATCH_SIZE (by norm_num [BATCH_SIZE])
      (mkChunks documents).length (mkChunks documents) (le_refl _) b hb
  · rw [List.map_append, hrecsdoc]
  · simp only [List.length_append]
    have : recs.length = documents.length := by
      have := congrArg List.length hrecsdoc
      rw [List.length_map, mkChunks_length] at this
      exact this
    rw [this]

/-- C6 witness: inserting 120 chunks issues three provider calls of sizes
50, 50 and 20, and leaves exactly 120 records in the index. -/
theorem bvAddDocuments_success_witness :
    ∃ stS calls,
      bvAddDocuments
          (fun texts => (Except.ok (texts.map (fun _ => ([1] : List ℚ))) :
            Except String (List (List ℚ))))
          (⟨[], none⟩ : BState) (List.replicate 120 ⟨"a", []⟩) = (stS, calls, none) ∧
      calls.map List.length = [50, 50, 20] ∧
      stS.docs.length = 120 := by
  obtain ⟨stS, calls, h1, h2, _, _, _, h6, _⟩ :=
    bvAddDocuments_success
      (fun texts => (Except.ok (texts.map (fun _ => ([1] : List ℚ))) :
        Except String (List (List ℚ))))
      (⟨[], none⟩ : BState) (List.replicate 120 ⟨"a", []⟩)
      (fun texts => ⟨texts.map (fun _ => [1]), rfl, by simp⟩)
  refine ⟨stS, calls, h1, ?_, ?_⟩
  · rw [h2]
    decide
  · rw [h6]
    simp

lemma lookup_setKeyJS_self (m : Metadata) (key : String) (v : MetaVal) :
    (setKeyJS m key v).lookup key = some v := by
  unfold setKeyJS
  by_cases hp : (m.lookup key).isSome
  · rw [if_pos hp]
    induction m with
    | nil => simp [List.lookup] at hp
    | cons kv rest ih =>
      obtain ⟨k1, v1⟩ := kv
      by_cases hk : k1 = key
      · subst hk
        rw [List.map_cons, if_pos (show ((k1, v1) : String × MetaVal).1 = k1 from rfl)]
        simp [List.lookup]
      · have hne : (key == k1) = false := beq_eq_false_iff_ne.mpr (Ne.symm hk)
        simp only [List.map_cons, if_neg hk]
        simp only [List.lookup, hne]
        apply ih
        simp only [List.lookup, hne] at hp
        exact hp
  · rw [if_neg hp]
    induction m with
    | nil => simp [List.lookup]
    | cons kv rest ih =>
      obtain ⟨k1, v1⟩ := kv
      by_cases hk : k1 = key
      · exfalso
        apply hp
        subst hk
        simp [List.lookup]
      · have hne : (key == k1) = false := beq_eq_false_iff_ne.mpr (Ne.symm hk)
        show List.lookup key ((k1, v1) :: (rest ++ [(key, v)])) = some v
        simp only [List.lookup, hne]
        apply ih
        intro hcon
        apply hp
        simp only [List.lookup, hne]
        exact hcon

lemma lookup_setKeyJS_other (m : Metadata) (key other : String) (v : MetaVal)
    (h : other ≠ key) : (setKeyJS m key v).lookup other = m.lookup other := by
  have hne : (other == key) = false := beq_eq_false_iff_ne.mpr h
  unfold setKeyJS
  by_cases hp : (m.lookup key).isSome
  · rw [if_pos hp]
    clear hp
    induction m with
    | nil => rfl
    | cons kv rest ih =>
      obtain ⟨k1, v1⟩ := kv
      by_cases hk : k1 = key
      · subst hk
        rw [List.map_cons, if_pos (show ((k1, v1) : String × MetaVal).1 = k1 from rfl)]
        simp only [List.lookup, hne]
        exact ih
      · simp only [List.map_cons, if_neg hk]
        simp only [List.lookup]
        cases hcmp : (other == k1) with
        | true => rfl
        | false => exact ih
  · rw [if_neg hp]
    clear hp
    induction m with
    | nil =>
      show List.lookup other ([] ++ [(key, v)]) = List.lookup other []
      simp [List.lookup, hne]
    | cons kv rest ih =>
      obtain ⟨k1, v1⟩ := kv
      show List.lookup other ((k1, v1) :: (rest ++ [(key, v)])) =
        List.lookup other ((k1, v1) :: rest)
      simp only [List.lookup]
      cases hcmp : (other == k1) with
      | true => rfl
      | false => exact ih

lemma mkChunk_lookup_chunkIndex (d : BerkshireDocument) (idx : ℕ) :
    (mkChunk d idx).metadata.lookup "chunkIndex" =
      some (match d.metadata.lookup "chunkIndex" with
            | none => MetaVal.num idx
            | some MetaVal.null => MetaVal.num idx
            | some v => v) :=
  lookup_setKeyJS_self d.metadata "chunkIndex" _

/-- C7 counterexample: a chunk whose metadata carries an explicit
`chunkIndex: null` does not keep it — the `??` fallback replaces `null` by
the position of the chunk, here `0`. -/
theorem mkChunks_null_counterexample :
    (mkChunks [⟨"x", [("chunkIndex", MetaVal.null)]⟩]).map
        (fun c => c.metadata.lookup "chunkIndex") = [some (MetaVal.num 0)] ∧
    ¬ some (MetaVal.num 0) = some MetaVal.null := by
  decide

/-- C7 (amended): the facade assigns each chunk whose metadata has no
`chunkIndex` key — or has it set to `null` — a `chunkIndex` equal to the
position of the chunk in the input list; a chunk with a non-null `chunkIndex`
keeps its value, and every other metadata key is carried over unchanged. -/
theorem mkChunks_chunkIndex (documents : List BerkshireDocument) (i : ℕ)
    (d : BerkshireDocument) (hd : documents[i]? = some d) :
    (mkChunks documents)[i]? = some (mkChunk d i) ∧
    (mkChunk d i).pageContent = d.content ∧
    ((d.metadata.lookup "chunkIndex" = none ∨
        d.metadata.lookup "chunkIndex" = some MetaVal.null) →
      (mkChunk d i).metadata.lookup "chunkIndex" = some (MetaVal.num i)) ∧
    (∀ v, ¬ v = MetaVal.null → d.metadata.lookup "chunkIndex" = some v →
      (mkChunk d i).metadata.lookup "chunkIndex" = some v) ∧
    (∀ key, ¬ key = "chunkIndex" →
      (mkChunk d i).metadata.lookup key = d.metadata.lookup key) := by
  refine ⟨?_, rfl, ?_, ?_, ?_⟩
  · simp [mkChunks, List.getElem?_map, List.getElem?_enum, hd]
  · intro hcase
    rw [mkChunk_lookup_chunkIndex]
    rcases hcase with hnone | hnull
    · rw [hnone]
    · rw [hnull]
  · intro v hv hsome
    rw [mkChunk_lookup_chunkIndex, hsome]
    cases v <;> simp at hv ⊢
  · intro key hkey
    exact lookup_setKeyJS_other d.metadata "chunkIndex" key _ hkey

/-- C7 witness: two chunks, the first without `chunkIndex` (receives its
position 0 — checked through the counterexample-free path), the second with
an explicit `chunkIndex` of 7, which it keeps. -/
theorem mkChunks_chunkIndex_witness :
    (mkChunks [⟨"x", []⟩, ⟨"y", [("chunkIndex", MetaVal.num 7)]⟩])[1]? =
      some (mkChunk ⟨"y", [("chunkIndex", MetaVal.num 7)]⟩ 1) ∧
    (mkChunk (⟨"y", [("chunkIndex", MetaVal.num 7)]⟩ : BerkshireDocument)
        1).metadata.lookup "chunkIndex" = some (MetaVal.num 7) :=
  ⟨(mkChunks_chunkIndex [⟨"x", []⟩, ⟨"y", [("chunkIndex", MetaVal.num 7)]⟩] 1
      ⟨"y", [("chunkIndex", MetaVal.num 7)]⟩ (by decide)).1,
   (mkChunks_chunkIndex [⟨"x", []⟩, ⟨"y", [("chunkIndex", MetaVal.num 7)]⟩] 1
      ⟨"y", [("chunkIndex", MetaVal.num 7)]⟩ (by decide)).2.2.2.1
     (MetaVal.num 7) (by decide) (by decide)⟩
